import Mathlib

/-!
Shallow embedding of the LicenseWall dependency-license scanner and policy
evaluator (TypeScript sources: src/scanner.ts, src/index.ts and the policy
module), together with proofs about the embedded definitions.

JS strings are modeled as `List Char` (the sources only manipulate ASCII
license identifiers and ASCII file contents).  JS `Map` insertion-ordered
state is modeled as an association list.  Filesystem contents are modeled
as an inductive directory tree.
-/

namespace LicenseWall

/-- Convenience conversion from a Lean string literal to the `List Char`
model of a JS string. -/
def chars (s : String) : List Char := s.toList

/-- Whitespace class of the JS regex `\s` restricted to ASCII: space, tab,
newline, carriage return, vertical tab and form feed. -/
def jsWhitespace (c : Char) : Bool :=
  c == ' ' || c == '\t' || c == '\n' || c == '\r' ||
  c == Char.ofNat 11 || c == Char.ofNat 12

/-- Embedding of JS `String.prototype.toLowerCase` on ASCII strings. -/
def lowerChars (l : List Char) : List Char := l.map Char.toLower

/-- Embedding of JS `String.prototype.toUpperCase` on ASCII strings. -/
def upperChars (l : List Char) : List Char := l.map Char.toUpper

/-- Embedding of JS `s.startsWith(pre)`: `startsWithChars s pre` is true iff
`pre` is an initial segment of `s`. -/
def startsWithChars : List Char → List Char → Bool
  | _, [] => true
  | [], _ :: _ => false
  | c :: cs, p :: ps => c == p && startsWithChars cs ps

/-- Embedding of JS `s.includes(sub)`: contiguous substring test. -/
def containsSub : List Char → List Char → Bool
  | [], sub => sub.isEmpty
  | c :: cs, sub => startsWithChars (c :: cs) sub || containsSub cs sub

/-- Embedding of JS `s.trim()` (ASCII whitespace). -/
def trimChars (l : List Char) : List Char :=
  ((l.dropWhile jsWhitespace).reverse.dropWhile jsWhitespace).reverse

/-- Word character class of the JS regex `\w`: letters, digits, underscore. -/
def isWordChar (c : Char) : Bool := c.isAlpha || c.isDigit || c == '_'

/-- One position of the JS regex test `\bw\b`: the word `w` occurs right
here, with no word character immediately before (`prev`) or after. -/
def wordAt (prev : Option Char) (s : List Char) (w : List Char) : Bool :=
  startsWithChars s w
  && (match prev with
      | none => true
      | some c => !isWordChar c)
  && (match s.drop w.length with
      | [] => true
      | c :: _ => !isWordChar c)

/-- Scan helper for `hasWord`, carrying the previously seen character. -/
def hasWordFrom (w : List Char) : Option Char → List Char → Bool
  | prev, [] => wordAt prev [] w
  | prev, c :: cs => wordAt prev (c :: cs) w || hasWordFrom w (some c) cs

/-- Embedding of the JS regex test `/\bw\b/.test(s)` for a word `w` made of
word characters. -/
def hasWord (s w : List Char) : Bool := hasWordFrom w none s

/-- First-match lookup in an association list, modeling both filesystem
name lookup and JS `Map.get` (keys are unique in both uses). -/
def lookupA {α : Type} : List (List Char × α) → List Char → Option α
  | [], _ => none
  | (k, v) :: rest, key => if k = key then some v else lookupA rest key

/-- Embedding of JS `s.startsWith(c)` for a single character `c`. -/
def headCharIs (s : List Char) (c : Char) : Bool :=
  match s with
  | [] => false
  | x :: _ => x == c

/-- Maximal-run accumulator for `runsOf`: `acc` is the current run,
reversed.  Two adjacent characters belong to the same run iff they agree on
`jsWhitespace`. -/
def runsAux : List Char → List Char → List (List Char)
  | [], acc => [acc.reverse]
  | c :: cs, acc =>
    match acc with
    | [] => runsAux cs [c]
    | a :: _ =>
      if jsWhitespace c == jsWhitespace a then runsAux cs (c :: acc)
      else acc.reverse :: runsAux cs [c]

/-- Splits a string into its maximal runs of whitespace and non-whitespace
characters, in order.  `runsOf` of the empty string is `[]`. -/
def runsOf : List Char → List (List Char)
  | [] => []
  | c :: cs => runsAux cs [c]

/-- Reassembles the runs produced by `runsOf` into the pieces of the JS
split `s.split(/\s+OR\s+/)`.  A separator match of that regex is exactly a
maximal whitespace run, followed by a maximal non-whitespace run equal to
`OR`, followed by a maximal whitespace run (the quantifiers are greedy and
matches are found left to right, which is what the triple scan does). -/
def rebuildTokens : List (List Char) → List Char → List (List Char)
  | r1 :: r2 :: r3 :: rest, acc =>
    if r1.all jsWhitespace && r2 == chars "OR" && r3.all jsWhitespace then
      acc :: rebuildTokens rest []
    else
      rebuildTokens (r2 :: r3 :: rest) (acc ++ r1)
  | r1 :: rest, acc => rebuildTokens rest (acc ++ r1)
  | [], acc => [acc]

/-- Embedding of `parseSPDXParts` from the policy module:
`license.split(/\s+OR\s+/).map((s) => s.trim()).filter(Boolean)`. -/
def parseSPDXParts (license : List Char) : List (List Char) :=
  ((rebuildTokens (runsOf license) []).map trimChars).filter (fun p => !p.isEmpty)

/-- Embedding of `matchesLicense` from the policy module:
`a === b || a.startsWith(b + '-')` on the lowercased part and entry. -/
def matchesLicense (licensePart listItem : List Char) : Bool :=
  lowerChars licensePart == lowerChars listItem
  || startsWithChars (lowerChars licensePart) (lowerChars listItem ++ ['-'])

/-- Embedding of `matchesAnyInList` from the policy module. -/
def matchesAnyInList (licenseParts : List (List Char)) (list : List (List Char)) : Bool :=
  licenseParts.any (fun part => list.any (fun item => matchesLicense part item))

/-- Embedding of the `Dep` interface of src/scanner.ts (shared with the
policy module). -/
structure Dep where
  name : List Char
  version : List Char
  license : List Char
  path : List Char
deriving DecidableEq

/-- Embedding of the `Policy` interface of the policy module (the one with
allow, deny and failOnUnknown). -/
structure Policy where
  allow : List (List Char)
  deny : List (List Char)
  failOnUnknown : Bool
deriving DecidableEq

/-- Embedding of the `Verdict` union type of the policy module. -/
inductive Verdict where
  | allowed
  | denied
  | unknown
deriving DecidableEq

/-- Embedding of the `PolicyResult` interface of the policy module. -/
structure PolicyResult where
  name : List Char
  version : List Char
  license : List Char
  verdict : Verdict
deriving DecidableEq

/-- Verdict computation of `evaluatePolicy` for one dependency (the body of
the `dependencies.map` callback).  The source computes
`parts = parseSPDXParts(dep.license)` once; here the pure call is written
out at each use. -/
def depVerdict (policy : Policy) (dep : Dep) : Verdict :=
  if policy.deny.length > 0 ∧ matchesAnyInList (parseSPDXParts dep.license) policy.deny = true then
    Verdict.denied
  else if policy.allow.length > 0 then
    if matchesAnyInList (parseSPDXParts dep.license) policy.allow = true then Verdict.allowed
    else Verdict.unknown
  else if policy.failOnUnknown = true ∧ dep.license = chars "UNKNOWN" then
    Verdict.unknown
  else
    Verdict.allowed

/-- Embedding of `evaluatePolicy` from the policy module. -/
def evaluatePolicy (policy : Policy) (dependencies : List Dep) : List PolicyResult :=
  dependencies.map fun dep =>
    { name := dep.name, version := dep.version, license := dep.license,
      verdict := depVerdict policy dep }

/-- Literal split on the four-character separator `" OR "`, the JS
semantics of `license.split(" OR ")`: leftmost, non-overlapping matches. -/
def splitLiteralOR : List Char → List Char → List (List Char)
  | ' ' :: 'O' :: 'R' :: ' ' :: rest, acc => acc.reverse :: splitLiteralOR rest []
  | c :: rest, acc => splitLiteralOR rest (c :: acc)
  | [], acc => [acc.reverse]

/-- Modelled from the spec: the spec sentence says the license string is
"split on the literal separator `\" OR \"` into parts (trimmed, empty parts
discarded)".  This definition follows those words, for comparison with
`parseSPDXParts`, which the source implements with the regex
`/\s+OR\s+/`. -/
def parseSPDXPartsSpec (license : List Char) : List (List Char) :=
  ((splitLiteralOR license []).map trimChars).filter (fun p => !p.isEmpty)

/-- Embedding of the `Policy` interface of src/scanner.ts, whose `allow`
and `deny` fields are optional.  Renamed to avoid a clash with the policy
module's `Policy`. -/
structure ScannerPolicy where
  allow : Option (List (List Char))
  deny : Option (List (List Char))
deriving DecidableEq

/-- Embedding of the `Violation` interface of src/scanner.ts. -/
structure Violation where
  dep : Dep
  reason : List Char
deriving DecidableEq

/-- Reason string used by `checkPolicy` for `UNKNOWN` licenses. -/
def unknownReason : List Char := chars "Unknown license — requires manual review"

/-- Deny-list arm of `checkPolicy` (the `else if` branch): reached when the
allow list is absent or empty. -/
def denyViolations (deny : Option (List (List Char))) (dep : Dep) : List Violation :=
  match deny with
  | some d =>
    if d.length > 0 then
      if d.any (fun x => containsSub dep.license x) then
        [⟨dep, chars "License \"" ++ dep.license ++ chars "\" is denied by policy"⟩]
      else []
    else []
  | none => []

/-- Violations produced by one iteration of the `checkPolicy` loop for one
dependency. -/
def depViolations (policy : ScannerPolicy) (dep : Dep) : List Violation :=
  if dep.license = chars "UNKNOWN" then
    [⟨dep, unknownReason⟩]
  else
    match policy.allow with
    | some allow =>
      if allow.length > 0 then
        if allow.any (fun a => containsSub dep.license a) then []
        else [⟨dep, chars "License \"" ++ dep.license ++ chars "\" not in allow list"⟩]
      else denyViolations policy.deny dep
    | none => denyViolations policy.deny dep

/-- Embedding of `checkPolicy` from src/scanner.ts: the loop pushes the
violations of each dependency in input order. -/
def checkPolicy (deps : List Dep) (policy : ScannerPolicy) : List Violation :=
  (deps.map (depViolations policy)).flatten

/-- Tool entry of the emitted SBOM metadata. -/
structure SbomTool where
  vendor : List Char
  name : List Char
  version : List Char
deriving DecidableEq

/-- Inner license-identifier object of an SBOM component. -/
structure SbomLicense where
  id : List Char
deriving DecidableEq

/-- One element of an SBOM component's `licenses` array. -/
structure SbomLicenseEntry where
  license : SbomLicense
deriving DecidableEq

/-- One entry of the emitted SBOM `components` array. -/
structure SbomComponent where
  type : List Char
  name : List Char
  version : List Char
  licenses : List SbomLicenseEntry
  purl : List Char
deriving DecidableEq

/-- Metadata object emitted by `generateSBOM`.  The source emits exactly
the fields `timestamp` and `tools`; there is no `component` field. -/
structure SbomMetadata where
  timestamp : List Char
  tools : List SbomTool
deriving DecidableEq

/-- Document emitted by `generateSBOM`. -/
structure Sbom where
  bomFormat : List Char
  specVersion : List Char
  version : Nat
  metadata : SbomMetadata
  components : List SbomComponent
deriving DecidableEq

/-- Embedding of `generateSBOM` from src/scanner.ts.  The call
`new Date().toISOString()` is modeled by the extra input `now`. -/
def generateSBOM (deps : List Dep) (now : List Char) : Sbom :=
  { bomFormat := chars "CycloneDX",
    specVersion := chars "1.5",
    version := 1,
    metadata := { timestamp := now,
                  tools := [⟨chars "LicenseWall", chars "licensewall", chars "1.0.0"⟩] },
    components := deps.map fun d =>
      { type := chars "library",
        name := d.name,
        version := d.version,
        licenses := [⟨⟨d.license⟩⟩],
        purl := chars "pkg:npm/" ++ d.name ++ '@' :: d.version } }

/-- One element of a JSON `licenses` array value, as far as
`normalizeLicense` inspects it: a string, an object with a truthy `type`
property, or an object without one (which JS stringifies as
`[object Object]`). -/
inductive LicElem where
  | estr (s : List Char)
  | eobjType (t : List Char)
  | eobjNoType
deriving DecidableEq

/-- Raw manifest `license` / `licenses` field value, as far as
`normalizeLicense` inspects it.  `falsy` stands for any falsy JS value
(absent, null, empty string, ...).  `objWithType t` stands for an object
whose `type` property stringifies to `t`. -/
inductive RawLicense where
  | falsy
  | str (s : List Char)
  | objWithType (t : List Char)
  | objNoType
  | arr (elems : List LicElem)
deriving DecidableEq

/-- String conversion of one `licenses` array element inside
`normalizeLicense`: `typeof l === 'object' && l?.type ? l.type : String(l)`. -/
def licElemStr : LicElem → List Char
  | .estr s => s
  | .eobjType t => if t.isEmpty then chars "[object Object]" else t
  | .eobjNoType => chars "[object Object]"

/-- JS truthiness of a raw license value ("" is falsy, every object and
array is truthy). -/
def licTruthy : RawLicense → Bool
  | .falsy => false
  | .str s => !s.isEmpty
  | .objWithType _ => true
  | .objNoType => true
  | .arr _ => true

/-- Embedding of `pkg.license || pkg.licenses` in the scanner. -/
def jsOrLicense (a b : RawLicense) : RawLicense := if licTruthy a then a else b

/-- Embedding of `normalizeLicense` from src/scanner.ts.  A `type`-less
object is not an array and lacks `'type' in raw`, so it falls through to
the final `return 'UNKNOWN'`. -/
def normalizeLicense : RawLicense → List Char
  | .falsy => chars "UNKNOWN"
  | .str s => if s.isEmpty then chars "UNKNOWN" else s
  | .objWithType t => t
  | .objNoType => chars "UNKNOWN"
  | .arr elems => List.intercalate (chars " OR ") (elems.map licElemStr)

/-- State of one file of a package directory: present but unreadable
(readFileSync throws), or readable with the given content. -/
inductive FileNode where
  | unreadable
  | readable (content : List Char)
deriving DecidableEq

/-- Candidate license file names probed by `detectLicenseFromFile`, in
order. -/
def licenseFilesList : List (List Char) :=
  [chars "LICENSE", chars "LICENSE.md", chars "LICENSE.txt",
   chars "LICENCE", chars "LICENCE.md", chars "LICENCE.txt",
   chars "COPYING", chars "COPYING.md"]

/-- Ordered pattern rules applied by `detectLicenseFromFile` to the
uppercased content of the first readable candidate file. -/
def classifyLicenseText (content : List Char) : Option (List Char) :=
  let upper := upperChars content
  if containsSub upper (chars "APACHE")
      && (containsSub upper (chars "VERSION 2.0") || containsSub upper (chars "APACHE-2.0")) then
    some (chars "Apache-2.0")
  else if containsSub upper (chars "MIT LICENSE")
      || containsSub upper (chars "PERMISSION IS HEREBY GRANTED, FREE OF CHARGE") then
    some (chars "MIT")
  else if containsSub upper (chars "ISC LICENSE")
      || (containsSub upper (chars "ISC") && containsSub upper (chars "PERMISSION TO USE")) then
    some (chars "ISC")
  else if containsSub upper (chars "BSD 3-CLAUSE") || containsSub upper (chars "BSD-3-CLAUSE") then
    some (chars "BSD-3-Clause")
  else if containsSub upper (chars "BSD 2-CLAUSE") || containsSub upper (chars "BSD-2-CLAUSE") then
    some (chars "BSD-2-Clause")
  else if containsSub upper (chars "GNU AFFERO GENERAL PUBLIC LICENSE")
      && containsSub upper (chars "VERSION 3") then
    some (chars "AGPL-3.0")
  else if containsSub upper (chars "GNU GENERAL PUBLIC LICENSE")
      && containsSub upper (chars "VERSION 3") then
    some (chars "GPL-3.0")
  else if containsSub upper (chars "GNU GENERAL PUBLIC LICENSE")
      && containsSub upper (chars "VERSION 2") then
    some (chars "GPL-2.0")
  else if containsSub upper (chars "GNU LESSER GENERAL PUBLIC LICENSE") then
    some (chars "LGPL")
  else if containsSub upper (chars "MOZILLA PUBLIC LICENSE") && containsSub upper (chars "2.0") then
    some (chars "MPL-2.0")
  else if containsSub upper (chars "THE UNLICENSE")
      || (containsSub upper (chars "UNLICENSE") && containsSub upper (chars "PUBLIC DOMAIN")) then
    some (chars "Unlicense")
  else if hasWord upper (chars "MIT") then some (chars "MIT")
  else if hasWord upper (chars "ISC") then some (chars "ISC")
  else if hasWord upper (chars "BSD") then some (chars "BSD")
  else if hasWord upper (chars "GPL") then some (chars "GPL")
  else if hasWord upper (chars "APACHE") then some (chars "Apache-2.0")
  else none

/-- Loop of `detectLicenseFromFile` over the candidate file names: a
missing file or an unreadable file continues to the next candidate; the
first readable candidate is classified, and a failed classification
returns `none` without trying further candidates. -/
def detectFromCandidates (files : List (List Char × FileNode)) :
    List (List Char) → Option (List Char)
  | [] => none
  | f :: rest =>
    match lookupA files f with
    | none => detectFromCandidates files rest
    | some FileNode.unreadable => detectFromCandidates files rest
    | some (FileNode.readable content) => classifyLicenseText content

/-- Embedding of `detectLicenseFromFile` from src/scanner.ts, over the
files of the package directory. -/
def detectLicenseFromFile (files : List (List Char × FileNode)) : Option (List Char) :=
  detectFromCandidates files licenseFilesList

/-- Parsed `package.json` of a package directory, as far as `scanDeep`
inspects it.  `version = none` models an absent field; an empty string is
falsy in `pkg.version || '0.0.0'`. -/
structure Manifest where
  version : Option (List Char)
  license : RawLicense
  licenses : RawLicense
deriving DecidableEq

/-- Directory tree: an optional parseable `package.json` (`none` covers
both an absent and an unparseable manifest, which `processDep` treats
identically), the directory's plain files (for the license-file detector),
and its subdirectories (`node_modules` and scope directories are looked up
here by name). -/
inductive FsDir where
  | mk (manifest : Option Manifest) (files : List (List Char × FileNode))
      (subdirs : List (List Char × FsDir))

/-- Manifest component of a directory. -/
def FsDir.man : FsDir → Option Manifest
  | .mk m _ _ => m

/-- Plain files of a directory. -/
def FsDir.files : FsDir → List (List Char × FileNode)
  | .mk _ fs _ => fs

/-- Subdirectories of a directory. -/
def FsDir.subdirs : FsDir → List (List Char × FsDir)
  | .mk _ _ sds => sds

mutual

/-- Structural size of a directory tree, used as recursion fuel for the
deep-scan walker. -/
def fsSize : FsDir → Nat
  | .mk _ _ subs => 1 + fsSizeEntries subs

/-- Structural size of a subdirectory list. -/
def fsSizeEntries : List (List Char × FsDir) → Nat
  | [] => 1
  | (_, d) :: rest => 1 + fsSize d + fsSizeEntries rest

end

/-- Entries of the `node_modules` subdirectory of a package directory; an
absent `node_modules` behaves like an empty one (`existsSync` guard). -/
def nmEntriesOf (dir : FsDir) : List (List Char × FsDir) :=
  match lookupA dir.subdirs (chars "node_modules") with
  | some d => d.subdirs
  | none => []

/-- Version extraction `(pkg.version as string) || '0.0.0'` of
`processDep`. -/
def manifestVersion (pkg : Manifest) : List Char :=
  match pkg.version with
  | some v => if v.isEmpty then chars "0.0.0" else v
  | none => chars "0.0.0"

/-- License resolution of `processDep` (lines 154-161 of src/scanner.ts):
normalize the manifest declaration and, when that yields `UNKNOWN`, fall
back to the license-file detector, keeping `UNKNOWN` when the detector
returns null. -/
def resolvedLicense (pkg : Manifest) (files : List (List Char × FileNode)) : List Char :=
  if normalizeLicense (jsOrLicense pkg.license pkg.licenses) = chars "UNKNOWN" then
    match detectLicenseFromFile files with
    | some d => d
    | none => normalizeLicense (jsOrLicense pkg.license pkg.licenses)
  else normalizeLicense (jsOrLicense pkg.license pkg.licenses)

/-- Embedding of the `ScannedDep` interface of src/scanner.ts. -/
structure ScannedDep where
  name : List Char
  version : List Char
  license : List Char
  path : List Char
  depth : Nat
  dependedBy : List (List Char)
deriving DecidableEq

/-- One encounter of a package during the deep scan: the data `processDep`
computes for it before touching the dedup map. -/
structure Enc where
  name : List Char
  version : List Char
  license : List Char
  path : List Char
  depth : Nat
  parent : Option (List Char)
deriving DecidableEq

/-- Dedup key `name@version` of an encounter, the JS template literal
woven by `processDep`. -/
def keyE (e : Enc) : List Char := e.name ++ '@' :: e.version

/-- Dedup key `name@version` of a scanned record. -/
def keyR (r : ScannedDep) : List Char := r.name ++ '@' :: r.version

/-- Insertion-ordered dedup map of the deep scan (JS `Map` keyed by
`name@version`), as an association list. -/
abbrev ScanSt := List (List Char × ScannedDep)

/-- In-place update of the (unique) entry with the given key, modeling the
mutation of the record stored in the JS `Map`. -/
def updateFirst (st : ScanSt) (k : List Char) (f : ScannedDep → ScannedDep) : ScanSt :=
  match st with
  | [] => []
  | (k2, v) :: rest => if k2 = k then (k2, f v) :: rest else (k2, v) :: updateFirst rest k f

/-- First merge statement of `processDep` for a re-encountered dependency:
`if (parent && !existing.dependedBy.includes(parent)) push(parent)`. -/
def mergeParent (r : ScannedDep) : Option (List Char) → ScannedDep
  | some p =>
    if p ≠ [] ∧ p ∉ r.dependedBy then { r with dependedBy := r.dependedBy ++ [p] } else r
  | none => r

/-- Merge of a re-encountered dependency into its existing record: push
the (truthy, fresh) parent, and lower the depth if this occurrence is
shallower. -/
def mergeDup (r : ScannedDep) (parent : Option (List Char)) (depth : Nat) : ScannedDep :=
  if depth < (mergeParent r parent).depth then { mergeParent r parent with depth := depth }
  else mergeParent r parent

/-- Initial `dependedBy` of a freshly created record:
`parent ? [parent] : []`. -/
def initParents : Option (List Char) → List (List Char)
  | some p => if p = [] then [] else [p]
  | none => []

/-- Create-or-merge action of `processDep` on the dedup map for one
encounter. -/
def depStep (st : ScanSt) (e : Enc) : ScanSt :=
  match lookupA st (keyE e) with
  | some _ => updateFirst st (keyE e) (fun r => mergeDup r e.parent e.depth)
  | none => st ++ [(keyE e, ⟨e.name, e.version, e.license, e.path, e.depth, initParents e.parent⟩)]

mutual

/-- Embedding of `walkNodeModules` of `scanDeep`: iterate the entries of a
`node_modules` directory, skipping dot entries, expanding scope entries
one level, and processing the rest as packages.  Recursion is made
structural by a fuel argument, decremented on every call; `scanDeep`
supplies `fsSize` of the whole tree, which strictly exceeds the depth of
this call tree because every call descends into structurally smaller
data. -/
def walkNM : Nat → List (List Char × FsDir) → List Char → Nat → Option (List Char) → ScanSt → ScanSt
  | 0, _, _, _, _, st => st
  | fuel + 1, entries, nmPath, depth, parent, st =>
    match entries with
    | [] => st
    | (ename, edir) :: rest =>
      let st1 :=
        if headCharIs ename '.' then st
        else if headCharIs ename '@' then
          walkScope fuel ename edir.subdirs (nmPath ++ '/' :: ename) depth parent st
        else processDep fuel edir ename (nmPath ++ '/' :: ename) depth parent st
      walkNM fuel rest nmPath depth parent st1

/-- Scope-directory expansion of `walkNodeModules`: every child of an
`@scope` entry is processed as a package named `@scope/child`. -/
def walkScope : Nat → List Char → List (List Char × FsDir) → List Char → Nat → Option (List Char) → ScanSt → ScanSt
  | 0, _, _, _, _, _, st => st
  | fuel + 1, scopeName, subs, scopePath, depth, parent, st =>
    match subs with
    | [] => st
    | (sname, sdir) :: rest =>
      let st1 := processDep fuel sdir (scopeName ++ '/' :: sname) (scopePath ++ '/' :: sname) depth parent st
      walkScope fuel scopeName rest scopePath depth parent st1

/-- Embedding of `processDep` of `scanDeep`: skip silently without a
parseable manifest, otherwise create-or-merge the record and recurse into
the package's own `node_modules` at depth + 1 with this package as
parent. -/
def processDep : Nat → FsDir → List Char → List Char → Nat → Option (List Char) → ScanSt → ScanSt
  | 0, _, _, _, _, _, st => st
  | fuel + 1, dir, name, path, depth, parent, st =>
    match dir.man with
    | none => st
    | some pkg =>
      let st1 := depStep st ⟨name, manifestVersion pkg, resolvedLicense pkg dir.files, path, depth, parent⟩
      walkNM fuel (nmEntriesOf dir) (path ++ chars "/node_modules") (depth + 1) (some name) st1

end

/-- Embedding of `scanDeep` from src/scanner.ts: walk the root's
`node_modules` at depth 0 with no parent and return the merged records in
insertion order (`Array.from(seen.values())`). -/
def scanDeep (rootPath : List Char) (root : FsDir) : List ScannedDep :=
  (walkNM (fsSize root) (nmEntriesOf root) (rootPath ++ chars "/node_modules") 0 none []).map Prod.snd

mutual

/-- Encounter sequence of `walkNM`: the packages `processDep` is reached
for, in traversal order, with the data it computes for each. -/
def encNM : Nat → List (List Char × FsDir) → List Char → Nat → Option (List Char) → List Enc
  | 0, _, _, _, _ => []
  | fuel + 1, entries, nmPath, depth, parent =>
    match entries with
    | [] => []
    | (ename, edir) :: rest =>
      (if headCharIs ename '.' then []
       else if headCharIs ename '@' then
         encScope fuel ename edir.subdirs (nmPath ++ '/' :: ename) depth parent
       else encProcess fuel edir ename (nmPath ++ '/' :: ename) depth parent)
      ++ encNM fuel rest nmPath depth parent

/-- Encounter sequence of `walkScope`. -/
def encScope : Nat → List Char → List (List Char × FsDir) → List Char → Nat → Option (List Char) → List Enc
  | 0, _, _, _, _, _ => []
  | fuel + 1, scopeName, subs, scopePath, depth, parent =>
    match subs with
    | [] => []
    | (sname, sdir) :: rest =>
      encProcess fuel sdir (scopeName ++ '/' :: sname) (scopePath ++ '/' :: sname) depth parent
      ++ encScope fuel scopeName rest scopePath depth parent

/-- Encounter sequence of `processDep`: the package itself (when it has a
manifest) followed by the encounters of its nested `node_modules`. -/
def encProcess : Nat → FsDir → List Char → List Char → Nat → Option (List Char) → List Enc
  | 0, _, _, _, _, _ => []
  | fuel + 1, dir, name, path, depth, parent =>
    match dir.man with
    | none => []
    | some pkg =>
      ⟨name, manifestVersion pkg, resolvedLicense pkg dir.files, path, depth, parent⟩
      :: encNM fuel (nmEntriesOf dir) (path ++ chars "/node_modules") (depth + 1) (some name)

end

/-- Encounter sequence of a whole deep scan, mirroring `scanDeep`. -/
def scanEncounters (rootPath : List Char) (root : FsDir) : List Enc :=
  encNM (fsSize root) (nmEntriesOf root) (rootPath ++ chars "/node_modules") 0 none

/-- Built-in default deny list of `loadPolicy` in src/index.ts, used when
no policy file exists. -/
def defaultDenyIds : List (List Char) :=
  [chars "AGPL-3.0", chars "GPL-3.0", chars "SSPL-1.0", chars "EUPL"]

/-- Policy path resolution of `loadPolicy`:
`policyPath ? resolve(policyPath) : resolve(dir, '.licensewall.json')`. -/
def resolvePolicyPath (policyPath : Option (List Char)) (dir : List Char) : List Char :=
  match policyPath with
  | some p => p
  | none => dir ++ chars "/.licensewall.json"

/-- Embedding of `loadPolicy` from src/index.ts.  The filesystem is modeled
by `fs`, mapping a path to the parsed policy file found there (`none` for
an absent file); `resolve` is modeled by joining the directory with the
default file name.  The file is parsed if it exists, otherwise the
built-in default policy is returned. -/
def loadPolicy (fs : List Char → Option ScannerPolicy) (policyPath : Option (List Char))
    (dir : List Char) : ScannerPolicy :=
  match fs (resolvePolicyPath policyPath dir) with
  | some pol => pol
  | none => { allow := none, deny := some defaultDenyIds }

/-- Dependency with an `UNKNOWN` license, from the scanner test data. -/
def mysteryDep : Dep := ⟨chars "mystery", chars "0.1.0", chars "UNKNOWN", chars "/mock"⟩

/-- Policy whose allow and deny lists share a license, for the deny
precedence witness. -/
def bothListsPolicy : Policy := ⟨[chars "MIT", chars "AGPL-3.0"], [chars "AGPL-3.0"], false⟩

/-- Dependency whose license appears in both lists of `bothListsPolicy`. -/
def conflictDep : Dep := ⟨chars "conflict", chars "1.0.0", chars "AGPL-3.0", chars "/mock"⟩

/-- Expected evaluation result for `conflictDep` under `bothListsPolicy`. -/
def conflictResult : PolicyResult := ⟨chars "conflict", chars "1.0.0", chars "AGPL-3.0", Verdict.denied⟩

/-- Scanner policy whose allow list even contains `UNKNOWN`. -/
def unknownAllowPolicy : ScannerPolicy := ⟨some [chars "UNKNOWN"], none⟩

/-- Dependency list of the `generateSBOM` unit test in
test/scanner.test.ts. -/
def mockDeps : List Dep :=
  [⟨chars "express", chars "4.18.2", chars "MIT", chars "/x"⟩,
   ⟨chars "react", chars "18.2.0", chars "MIT", chars "/x"⟩,
   ⟨chars "viral-lib", chars "1.0.0", chars "AGPL-3.0-only", chars "/x"⟩,
   ⟨chars "mystery", chars "0.1.0", chars "UNKNOWN", chars "/x"⟩]

/-- Package directory with a license file that matches no classification
rule. -/
def unclassifiableFiles : List (List Char × FileNode) :=
  [(chars "LICENSE", FileNode.readable (chars "hello world"))]

/-- Manifest with no license declaration. -/
def mitManifest : Manifest := ⟨some (chars "1.0.0"), RawLicense.falsy, RawLicense.falsy⟩

/-- Files of a package directory whose root-level license file carries the
MIT permission sentence. -/
def mitFiles : List (List Char × FileNode) :=
  [(chars "LICENSE", FileNode.readable (chars "Permission is hereby granted, free of charge"))]

/-- Project whose single installed package declares no license but ships
an MIT license file. -/
def mitRoot : FsDir :=
  .mk none [] [(chars "node_modules",
    .mk none [] [(chars "mit-pkg", .mk (some mitManifest) mitFiles [])])]

/-- Manifest declaring only a version. -/
def verManifest (v : String) : Manifest := ⟨some (chars v), RawLicense.falsy, RawLicense.falsy⟩

/-- Package `p@1` depending on `a@b@2` (a version string containing `@`). -/
def pDir : FsDir :=
  .mk (some (verManifest "1")) []
    [(chars "node_modules", .mk none [] [(chars "a", .mk (some (verManifest "b@2")) [] [])])]

/-- Package `q@1` with the same nested dependency as `pDir`. -/
def qDir : FsDir :=
  .mk (some (verManifest "1")) []
    [(chars "node_modules", .mk none [] [(chars "a", .mk (some (verManifest "b@2")) [] [])])]

/-- Top-level package named `a@b` at version `2`, whose dedup key
`a@b@2` collides with that of the package `a` at version `b@2`. -/
def abDir : FsDir := .mk (some (verManifest "2")) [] []

/-- Project exhibiting the dedup-key collision between the distinct pairs
`("a", "b@2")` and `("a@b", "2")`. -/
def collisionRoot : FsDir :=
  .mk none [] [(chars "node_modules",
    .mk none [] [(chars "p", pDir), (chars "q", qDir), (chars "a@b", abDir)])]

/-- Dual-licensed dependency for the SPDX disjunction witness. -/
def dualDep : Dep := ⟨chars "dual", chars "1.0.0", chars "MIT OR Apache-2.0", chars "/mock"⟩

/-- Allow-only policy accepting `Apache-2.0`. -/
def apachePolicy : Policy := ⟨[chars "Apache-2.0"], [], false⟩

/-- Formalization of the claim that deep-scan deduplication works per
`(name, version)` pair: records are unique per pair, and a pair that is
encountered several times has a merged record carrying that pair's
minimum encounter depth and the union of that pair's encounter parents,
each exactly once. -/
def DedupPerPair (rootPath : List Char) (root : FsDir) : Prop :=
  (∀ r1 ∈ scanDeep rootPath root, ∀ r2 ∈ scanDeep rootPath root,
    r1.name = r2.name → r1.version = r2.version → r1 = r2)
  ∧ ∀ e ∈ scanEncounters rootPath root,
      2 ≤ (scanEncounters rootPath root).countP
            (fun e2 => e2.name == e.name && e2.version == e.version) →
      ∃ r ∈ scanDeep rootPath root, r.name = e.name ∧ r.version = e.version
        ∧ (∀ e2 ∈ scanEncounters rootPath root,
            e2.name = e.name → e2.version = e.version → r.depth ≤ e2.depth)
        ∧ (∃ e2 ∈ scanEncounters rootPath root,
            e2.name = e.name ∧ e2.version = e.version ∧ e2.depth = r.depth)
        ∧ r.dependedBy.Nodup
        ∧ (∀ q, q ∈ r.dependedBy ↔ ∃ e2 ∈ scanEncounters rootPath root,
            e2.name = e.name ∧ e2.version = e.version ∧ e2.parent = some q)

/-- Invariant tying the dedup map to the encounters already folded into
it: every stored record's `name@version` key is its map key, keys are
unique, a key is present exactly when it was encountered, every record's
depth is the minimum depth over the encounters of its key, and every
record's `dependedBy` is the duplicate-free set of truthy parents over the
encounters of its key. -/
def ScanInv (st : ScanSt) (seen : List Enc) : Prop :=
  (∀ p ∈ st, keyR p.2 = p.1)
  ∧ (st.map Prod.fst).Nodup
  ∧ (∀ k : List Char, (∃ e ∈ seen, keyE e = k) ↔ ∃ r, (k, r) ∈ st)
  ∧ (∀ p ∈ st,
      (∀ e ∈ seen, keyE e = p.1 → p.2.depth ≤ e.depth)
      ∧ (∃ e ∈ seen, keyE e = p.1 ∧ e.depth = p.2.depth))
  ∧ (∀ p ∈ st, p.2.dependedBy.Nodup
      ∧ (∀ q, q ∈ p.2.dependedBy ↔
          ∃ e ∈ seen, keyE e = p.1 ∧ e.parent = some q ∧ q ≠ []))

/-- Characterization of `startsWithChars` as an existential prefix
statement. -/
theorem startsWithChars_iff (pre : List Char) :
    ∀ s : List Char, startsWithChars s pre = true ↔ ∃ t, s = pre ++ t := by
  induction pre with
  | nil => intro s; simp [startsWithChars]
  | cons p ps ih =>
    intro s
    cases s with
    | nil => simp [startsWithChars]
    | cons c cs => simp [startsWithChars, ih, List.cons.injEq, exists_and_left]

/-- Claim C1: policy evaluation gives deny absolute precedence — whenever
the deny list is non-empty and any SPDX part of a result's license matches
a deny entry, that result's verdict is `denied`, whatever the allow list
contains. -/
theorem evaluatePolicy_deny_absolute (policy : Policy) (deps : List Dep) (r : PolicyResult)
    (hr : r ∈ evaluatePolicy policy deps) (hd : policy.deny ≠ [])
    (hm : matchesAnyInList (parseSPDXParts r.license) policy.deny = true) :
    r.verdict = Verdict.denied := by
  obtain ⟨dep, _, rfl⟩ := List.mem_map.mp hr
  show depVerdict policy dep = Verdict.denied
  have hlen : policy.deny.length > 0 := List.length_pos.mpr hd
  have hm2 : matchesAnyInList (parseSPDXParts dep.license) policy.deny = true := hm
  unfold depVerdict
  rw [if_pos ⟨hlen, hm2⟩]

/-- Witness for C1: a license in both lists is denied. -/
theorem evaluatePolicy_deny_absolute_witness : conflictResult.verdict = Verdict.denied :=
  evaluatePolicy_deny_absolute bothListsPolicy [conflictDep] conflictResult
    (by decide) (by decide) (by decide)

/-- Claim C3: with empty allow and deny lists, every dependency is allowed
when `failOnUnknown` is false; with `failOnUnknown` true, exactly the
dependencies whose license is the literal string `UNKNOWN` get verdict
`unknown` and all others are allowed. -/
theorem evaluatePolicy_empty_lists (deps : List Dep) (r : PolicyResult) :
    (r ∈ evaluatePolicy ⟨[], [], false⟩ deps → r.verdict = Verdict.allowed)
    ∧ (r ∈ evaluatePolicy ⟨[], [], true⟩ deps →
        r.verdict = if r.license = chars "UNKNOWN" then Verdict.unknown else Verdict.allowed) := by
  constructor
  · intro hr
    obtain ⟨dep, _, rfl⟩ := List.mem_map.mp hr
    show depVerdict ⟨[], [], false⟩ dep = Verdict.allowed
    unfold depVerdict
    simp
  · intro hr
    obtain ⟨dep, _, rfl⟩ := List.mem_map.mp hr
    show depVerdict ⟨[], [], true⟩ dep
        = if dep.license = chars "UNKNOWN" then Verdict.unknown else Verdict.allowed
    unfold depVerdict
    simp

/-- Witness for C3: the `UNKNOWN`-licensed dependency is allowed under the
empty policy and unknown once `failOnUnknown` is set. -/
theorem evaluatePolicy_empty_lists_witness :
    (⟨chars "mystery", chars "0.1.0", chars "UNKNOWN", Verdict.allowed⟩ : PolicyResult).verdict
        = Verdict.allowed
    ∧ (⟨chars "mystery", chars "0.1.0", chars "UNKNOWN", Verdict.unknown⟩ : PolicyResult).verdict
        = if (⟨chars "mystery", chars "0.1.0", chars "UNKNOWN", Verdict.unknown⟩ : PolicyResult).license
              = chars "UNKNOWN" then Verdict.unknown else Verdict.allowed :=
  ⟨(evaluatePolicy_empty_lists [mysteryDep] _).1 (by decide),
   (evaluatePolicy_empty_lists [mysteryDep] _).2 (by decide)⟩

/-- Claim C4: a license part matches a list entry exactly when the two are
equal case-insensitively or the lowercased part extends the lowercased
entry by a hyphen; `AGPL-3.0-only` matches `AGPL-3.0`, while
`GPL-30-custom` does not match `GPL-3.0` and `GPL-3.0` does not match
`GPL-3`. -/
theorem matchesLicense_rule :
    (∀ p e : List Char, matchesLicense p e = true ↔
      (lowerChars p = lowerChars e ∨ ∃ s, lowerChars p = lowerChars e ++ '-' :: s))
    ∧ matchesLicense (chars "AGPL-3.0-only") (chars "AGPL-3.0") = true
    ∧ matchesLicense (chars "GPL-30-custom") (chars "GPL-3.0") = false
    ∧ matchesLicense (chars "GPL-3.0") (chars "GPL-3") = false := by
  refine ⟨fun p e => ?_, by decide, by decide, by decide⟩
  simp [matchesLicense, startsWithChars_iff, List.append_assoc]

/-- Claim C7: when no policy file exists at the resolved path, `loadPolicy`
returns the built-in default policy, whose deny list is the fixed set of
strong-copyleft identifiers. -/
theorem loadPolicy_absent_default (fs : List Char → Option ScannerPolicy)
    (policyPath : Option (List Char)) (dir : List Char)
    (h : fs (resolvePolicyPath policyPath dir) = none) :
    loadPolicy fs policyPath dir = { allow := none, deny := some defaultDenyIds } := by
  unfold loadPolicy
  rw [h]

/-- Witness for C7: an empty filesystem yields the default deny policy. -/
theorem loadPolicy_absent_default_witness :
    loadPolicy (fun _ => none) none (chars "/proj")
      = { allow := none, deny := some defaultDenyIds } :=
  loadPolicy_absent_default (fun _ => none) none (chars "/proj") rfl

/-- Claim C10: for every policy, a dependency whose license is exactly
`UNKNOWN` contributes exactly the fixed manual-review violation, with no
allow- or deny-list check applied and no dependence on the policy value,
and that violation is in the `checkPolicy` output. -/
theorem checkPolicy_unknown_fixed :
    (∀ (policy : ScannerPolicy) (dep : Dep), dep.license = chars "UNKNOWN" →
      depViolations policy dep = [⟨dep, unknownReason⟩])
    ∧ (∀ (policy : ScannerPolicy) (deps : List Dep) (dep : Dep), dep ∈ deps →
      dep.license = chars "UNKNOWN" →
      (⟨dep, unknownReason⟩ : Violation) ∈ checkPolicy deps policy) := by
  constructor
  · intro policy dep h
    unfold depViolations
    rw [if_pos h]
  · intro policy deps dep hdep h
    have h1 : depViolations policy dep = [⟨dep, unknownReason⟩] := by
      unfold depViolations
      rw [if_pos h]
    unfold checkPolicy
    refine List.mem_flatten.mpr ⟨[⟨dep, unknownReason⟩], List.mem_map.mpr ⟨dep, hdep, h1⟩, ?_⟩
    simp

/-- Witness for C10: even a policy allowing `UNKNOWN` still flags the
`UNKNOWN` dependency with the fixed reason. -/
theorem checkPolicy_unknown_fixed_witness :
    depViolations unknownAllowPolicy mysteryDep = [⟨mysteryDep, unknownReason⟩]
    ∧ (⟨mysteryDep, unknownReason⟩ : Violation) ∈ checkPolicy [mysteryDep] unknownAllowPolicy :=
  ⟨checkPolicy_unknown_fixed.1 unknownAllowPolicy mysteryDep (by decide),
   checkPolicy_unknown_fixed.2 unknownAllowPolicy [mysteryDep] mysteryDep (by decide) (by decide)⟩

/-- Claim C9: shape of the emitted SBOM at the input of the failing unit
test.  The document has `bomFormat CycloneDX`, `specVersion 1.5`,
`version 1`, one `library` component per dependency with the right purl
and license id — but its metadata consists of the timestamp and tools
only: `generateSBOM` accepts no subject name and emits no
`metadata.component`, although its own unit test passes `'my-app'` and
expects `metadata.component.name`. -/
theorem generateSBOM_shape (now : List Char) :
    (generateSBOM mockDeps now).metadata
        = { timestamp := now, tools := [⟨chars "LicenseWall", chars "licensewall", chars "1.0.0"⟩] }
    ∧ (generateSBOM mockDeps now).bomFormat = chars "CycloneDX"
    ∧ (generateSBOM mockDeps now).specVersion = chars "1.5"
    ∧ (generateSBOM mockDeps now).version = 1
    ∧ (generateSBOM mockDeps now).components.map SbomComponent.purl
        = [chars "pkg:npm/express@4.18.2", chars "pkg:npm/react@18.2.0",
           chars "pkg:npm/viral-lib@1.0.0", chars "pkg:npm/mystery@0.1.0"]
    ∧ (generateSBOM mockDeps now).components.map
        (fun c => c.licenses.map (fun l => l.license.id))
        = [[chars "MIT"], [chars "MIT"], [chars "AGPL-3.0-only"], [chars "UNKNOWN"]]
    ∧ (generateSBOM [⟨chars "x", chars "1.0.0", chars "MIT", chars "/x"⟩] now).components.map
        (fun c => (c.purl, c.licenses.map (fun l => l.license.id)))
        = [(chars "pkg:npm/x@1.0.0", [chars "MIT"])] := by
  refine ⟨rfl, rfl, rfl, rfl, ?_, ?_, ?_⟩ <;> rfl

/-- Counterexample for C8: a directory holding an unclassifiable license
file and a directory holding no license file at all produce the very same
detector value (`none`), so the two negative outcomes are not
distinguishable in the returned value. -/
theorem detect_outcomes_equal :
    detectLicenseFromFile unclassifiableFiles = none
    ∧ detectLicenseFromFile [] = none
    ∧ detectLicenseFromFile unclassifiableFiles = detectLicenseFromFile [] := by
  decide

/-- Claim C8 (amended): the detector folds both of its negative outcomes
into the same returned value `none` — a readable candidate file whose
content matches no rule gives `none`, exactly as a directory with no
candidate file does, and the caller maps either to `UNKNOWN`. -/
theorem detect_negative_outcomes_both_none (content : List Char)
    (h : classifyLicenseText content = none) :
    detectLicenseFromFile [(chars "LICENSE", FileNode.readable content)] = none
    ∧ detectLicenseFromFile [] = none := by
  constructor
  · show detectFromCandidates _ _ = none
    simp [detectFromCandidates, licenseFilesList, lookupA, h]
  · decide

/-- Witness for C8 (amended): the `hello world` license file is found but
unclassifiable. -/
theorem detect_negative_outcomes_both_none_witness :
    detectLicenseFromFile [(chars "LICENSE", FileNode.readable (chars "hello world"))] = none
    ∧ detectLicenseFromFile [] = none :=
  detect_negative_outcomes_both_none (chars "hello world") (by decide)

/-- Claim C6: whenever normalizing the manifest license yields `UNKNOWN`,
the walker takes the license-file detector's classification as the
license (keeping `UNKNOWN` when the detector finds nothing), and a
manifest without a license field whose root-level license file contains
"Permission is hereby granted, free of charge" is scanned with license
`MIT`. -/
theorem scanDeep_license_fallback :
    (∀ (pkg : Manifest) (files : List (List Char × FileNode)) (d : List Char),
      normalizeLicense (jsOrLicense pkg.license pkg.licenses) = chars "UNKNOWN" →
      detectLicenseFromFile files = some d → resolvedLicense pkg files = d)
    ∧ (∀ (pkg : Manifest) (files : List (List Char × FileNode)),
      normalizeLicense (jsOrLicense pkg.license pkg.licenses) = chars "UNKNOWN" →
      detectLicenseFromFile files = none → resolvedLicense pkg files = chars "UNKNOWN")
    ∧ (∀ (pkg : Manifest) (files : List (List Char × FileNode)),
      normalizeLicense (jsOrLicense pkg.license pkg.licenses) ≠ chars "UNKNOWN" →
      resolvedLicense pkg files = normalizeLicense (jsOrLicense pkg.license pkg.licenses))
    ∧ scanDeep (chars "/proj") mitRoot
        = [⟨chars "mit-pkg", chars "1.0.0", chars "MIT", chars "/proj/node_modules/mit-pkg", 0, []⟩] := by
  refine ⟨?_, ?_, ?_, by decide⟩
  · intro pkg files d hn hd
    unfold resolvedLicense
    rw [if_pos hn, hd]
  · intro pkg files hn hd
    unfold resolvedLicense
    rw [if_pos hn, hd]
    exact hn
  · intro pkg files hn
    unfold resolvedLicense
    rw [if_neg hn]

/-- Witness for C6: the MIT permission sentence resolves to `MIT`. -/
theorem scanDeep_license_fallback_witness :
    resolvedLicense mitManifest mitFiles = chars "MIT" :=
  scanDeep_license_fallback.1 mitManifest mitFiles (chars "MIT") (by decide) (by decide)

/-- Counterexample for C5: the source splits on the regex with arbitrary
whitespace around `OR`, not on the literal separator `" OR "`; on the
license `MIT\tOR GPL-3.0` the two disagree. -/
theorem parseSPDXParts_not_literal_split :
    parseSPDXParts (chars "MIT\tOR GPL-3.0") = [chars "MIT", chars "GPL-3.0"]
    ∧ parseSPDXPartsSpec (chars "MIT\tOR GPL-3.0") = [chars "MIT\tOR GPL-3.0"]
    ∧ parseSPDXParts (chars "MIT\tOR GPL-3.0") ≠ parseSPDXPartsSpec (chars "MIT\tOR GPL-3.0") := by
  decide

/-- Scan step of `runsAux` when the next character continues the current
run. -/
theorem runsAux_step_same (c : Char) (cs : List Char) (a : Char) (as : List Char)
    (h : jsWhitespace c = jsWhitespace a) :
    runsAux (c :: cs) (a :: as) = runsAux cs (c :: a :: as) := by
  conv_lhs => unfold runsAux
  simp [h]

/-- Scan step of `runsAux` when the next character opens a new run. -/
theorem runsAux_step_diff (c : Char) (cs : List Char) (a : Char) (as : List Char)
    (h : jsWhitespace c ≠ jsWhitespace a) :
    runsAux (c :: cs) (a :: as) = (a :: as).reverse :: runsAux cs [c] := by
  conv_lhs => unfold runsAux
  simp [h]

/-- A whitespace-free remainder joins the pending whitespace-free run into
one final run. -/
theorem runsAux_nonws : ∀ (t acc : List Char), acc ≠ [] →
    (∀ c ∈ acc, jsWhitespace c = false) → (∀ c ∈ t, jsWhitespace c = false) →
    runsAux t acc = [acc.reverse ++ t] := by
  intro t
  induction t with
  | nil =>
    intro acc hne _ _
    simp [runsAux]
  | cons c cs ih =>
    intro acc hne hacc ht
    cases acc with
    | nil => exact absurd rfl hne
    | cons a as =>
      have hc : jsWhitespace c = false := ht c (List.mem_cons_self c cs)
      have ha : jsWhitespace a = false := hacc a (List.mem_cons_self a as)
      rw [runsAux_step_same c cs a as (by rw [hc, ha])]
      have hacc2 : ∀ x ∈ c :: a :: as, jsWhitespace x = false := by
        intro x hx
        rcases List.mem_cons.mp hx with h1 | h2
        · rw [h1]; exact hc
        · exact hacc x h2
      have ht2 : ∀ x ∈ cs, jsWhitespace x = false := fun x hx => ht x (List.mem_cons_of_mem c hx)
      rw [ih (c :: a :: as) (by simp) hacc2 ht2]
      simp

/-- Run decomposition of a string of the shape `t ++ " OR " ++ b` with a
whitespace-free pending run and whitespace-free `t` and `b`. -/
theorem runsAux_sep : ∀ (t acc b : List Char), acc ≠ [] →
    (∀ c ∈ acc, jsWhitespace c = false) → (∀ c ∈ t, jsWhitespace c = false) →
    b ≠ [] → (∀ c ∈ b, jsWhitespace c = false) →
    runsAux (t ++ chars " OR " ++ b) acc
      = [acc.reverse ++ t, [' '], ['O', 'R'], [' '], b] := by
  intro t
  induction t with
  | nil =>
    intro acc b hne hacc hb hbne hwb
    cases acc with
    | nil => exact absurd rfl hne
    | cons a as =>
      have ha : jsWhitespace a = false := hacc a (List.mem_cons_self a as)
      show runsAux (' ' :: 'O' :: 'R' :: ' ' :: b) (a :: as) = _
      rw [runsAux_step_diff ' ' _ a as (by rw [ha]; decide)]
      rw [runsAux_step_diff 'O' _ ' ' [] (by decide)]
      rw [runsAux_step_same 'R' _ 'O' [] (by decide)]
      rw [runsAux_step_diff ' ' _ 'R' ['O'] (by decide)]
      cases b with
      | nil => exact absurd rfl hbne
      | cons b0 bs =>
        have hb0 : jsWhitespace b0 = false := hwb b0 (List.mem_cons_self b0 bs)
        rw [runsAux_step_diff b0 bs ' ' [] (by rw [hb0]; decide)]
        rw [runsAux_nonws bs [b0] (by simp) (by intro x hx; simp at hx; rw [hx]; exact hb0)
          (fun x hx => hwb x (List.mem_cons_of_mem b0 hx))]
        simp
  | cons x xs ih =>
    intro acc b hne hacc ht hbne hwb
    cases acc with
    | nil => exact absurd rfl hne
    | cons a as =>
      have hx : jsWhitespace x = false := ht x (List.mem_cons_self x xs)
      have ha : jsWhitespace a = false := hacc a (List.mem_cons_self a as)
      show runsAux (x :: (xs ++ chars " OR " ++ b)) (a :: as) = _
      rw [runsAux_step_same x _ a as (by rw [hx, ha])]
      have hacc2 : ∀ c ∈ x :: a :: as, jsWhitespace c = false := by
        intro c hc
        rcases List.mem_cons.mp hc with h1 | h2
        · rw [h1]; exact hx
        · exact hacc c h2
      rw [ih (x :: a :: as) b (by simp) hacc2
        (fun c hc => ht c (List.mem_cons_of_mem x hc)) hbne hwb]
      simp

/-- Run decomposition of a whole license string `a ++ " OR " ++ b` with
whitespace-free non-empty `a` and `b`. -/
theorem runsOf_sep (a b : List Char) (ha : a ≠ []) (hb : b ≠ [])
    (hwa : ∀ c ∈ a, jsWhitespace c = false) (hwb : ∀ c ∈ b, jsWhitespace c = false) :
    runsOf (a ++ chars " OR " ++ b) = [a, [' '], ['O', 'R'], [' '], b] := by
  cases a with
  | nil => exact absurd rfl ha
  | cons a0 as =>
    show runsAux (as ++ chars " OR " ++ b) [a0] = _
    rw [runsAux_sep as [a0] b (by simp)
      (by intro x hx; simp at hx; rw [hx]; exact hwa a0 (List.mem_cons_self a0 as))
      (fun c hc => hwa c (List.mem_cons_of_mem a0 hc)) hb hwb]
    simp

/-- Token reassembly of the five runs of `a ++ " OR " ++ b`. -/
theorem rebuildTokens_sep (a b : List Char) (ha : a ≠ [])
    (hwa : ∀ c ∈ a, jsWhitespace c = false) :
    rebuildTokens [a, [' '], ['O', 'R'], [' '], b] [] = [a, b] := by
  have hall : a.all jsWhitespace = false := by
    cases a with
    | nil => exact absurd rfl ha
    | cons x xs =>
      have hx : jsWhitespace x = false := hwa x (List.mem_cons_self x xs)
      simp [List.all_cons, hx]
  have h1 : rebuildTokens [a, [' '], ['O', 'R'], [' '], b] []
      = rebuildTokens [[' '], ['O', 'R'], [' '], b] ([] ++ a) := by
    conv_lhs => unfold rebuildTokens
    split
    · rename_i hcond
      exact absurd hcond (by simp [hall])
    · rfl
  have h2 : rebuildTokens [[' '], ['O', 'R'], [' '], b] a = a :: rebuildTokens [b] [] := by
    conv_lhs => unfold rebuildTokens
    split
    · rfl
    · rename_i hcond
      exact absurd (by decide) hcond
  have h3 : rebuildTokens [b] ([] : List Char) = [b] := rfl
  rw [h1, List.nil_append, h2, h3]

/-- Trimming is the identity on whitespace-free strings. -/
theorem trimChars_nonws (l : List Char) (h : ∀ c ∈ l, jsWhitespace c = false) :
    trimChars l = l := by
  have hdrop : ∀ (m : List Char), (∀ c ∈ m, jsWhitespace c = false) →
      m.dropWhile jsWhitespace = m := by
    intro m hm
    cases m with
    | nil => rfl
    | cons c cs =>
      rw [List.dropWhile_cons, hm c (List.mem_cons_self c cs)]
      simp
  unfold trimChars
  rw [hdrop l h, hdrop l.reverse (by intro c hc; exact h c (List.mem_reverse.mp hc)),
    List.reverse_reverse]

/-- SPDX parsing of a binary disjunction with whitespace-free non-empty
alternatives. -/
theorem parseSPDXParts_sep (a b : List Char) (ha : a ≠ []) (hb : b ≠ [])
    (hwa : ∀ c ∈ a, jsWhitespace c = false) (hwb : ∀ c ∈ b, jsWhitespace c = false) :
    parseSPDXParts (a ++ chars " OR " ++ b) = [a, b] := by
  unfold parseSPDXParts
  rw [runsOf_sep a b ha hb hwa hwb, rebuildTokens_sep a b ha hwa,
    List.map_cons, List.map_cons, List.map_nil,
    trimChars_nonws a hwa, trimChars_nonws b hwb]
  have hae : a.isEmpty = false := by cases a; { exact absurd rfl ha }; rfl
  have hbe : b.isEmpty = false := by cases b; { exact absurd rfl hb }; rfl
  simp [List.filter_cons, hae, hbe]

/-- Splitting of a two-element part list over any entry list. -/
theorem matchesAnyInList_pair (a b : List Char) (l : List (List Char)) :
    matchesAnyInList [a, b] l = (matchesAnyInList [a] l || matchesAnyInList [b] l) := by
  simp [matchesAnyInList]

/-- Claim C5 (amended): the license string is split on `OR` separators
surrounded by whitespace (the regex `\s+OR\s+`, not the literal `" OR "`)
into trimmed non-empty parts; an `A OR B` license (whitespace-free
non-empty alternatives joined by a single-spaced `OR`) parses into the two
alternatives, is denied whenever either alternative matches a deny entry,
and — when no deny entry matches — is allowed whenever either alternative
satisfies a non-empty allow list. -/
theorem parseSPDXParts_or_semantics (a b : List Char) (policy : Policy) (dep : Dep)
    (ha : a ≠ []) (hb : b ≠ [])
    (hwa : ∀ c ∈ a, jsWhitespace c = false) (hwb : ∀ c ∈ b, jsWhitespace c = false)
    (hlic : dep.license = a ++ chars " OR " ++ b) :
    parseSPDXParts dep.license = [a, b]
    ∧ (policy.deny ≠ [] →
        (matchesAnyInList [a] policy.deny || matchesAnyInList [b] policy.deny) = true →
        depVerdict policy dep = Verdict.denied)
    ∧ (matchesAnyInList [a, b] policy.deny = false → policy.allow ≠ [] →
        (matchesAnyInList [a] policy.allow || matchesAnyInList [b] policy.allow) = true →
        depVerdict policy dep = Verdict.allowed) := by
  have hsplit : parseSPDXParts dep.license = [a, b] := by
    rw [hlic]
    exact parseSPDXParts_sep a b ha hb hwa hwb
  refine ⟨hsplit, ?_, ?_⟩
  · intro hdeny hmatch
    unfold depVerdict
    rw [hsplit]
    rw [if_pos ⟨List.length_pos.mpr hdeny, by rw [matchesAnyInList_pair]; exact hmatch⟩]
  · intro hnod hallow hmatch
    unfold depVerdict
    rw [hsplit]
    have hcond : ¬ (policy.deny.length > 0 ∧ matchesAnyInList [a, b] policy.deny = true) := by
      rintro ⟨_, hh⟩
      rw [hnod] at hh
      exact Bool.false_ne_true hh
    rw [if_neg hcond, if_pos (List.length_pos.mpr hallow),
      if_pos (by rw [matchesAnyInList_pair]; exact hmatch)]

/-- Witness for C5 (amended): `MIT OR Apache-2.0` splits into its two
alternatives and is allowed under an allow list holding only
`Apache-2.0`. -/
theorem parseSPDXParts_or_semantics_witness :
    parseSPDXParts dualDep.license = [chars "MIT", chars "Apache-2.0"]
    ∧ depVerdict apachePolicy dualDep = Verdict.allowed :=
  ⟨(parseSPDXParts_or_semantics (chars "MIT") (chars "Apache-2.0") apachePolicy dualDep
      (by decide) (by decide) (by decide) (by decide) (by decide)).1,
   (parseSPDXParts_or_semantics (chars "MIT") (chars "Apache-2.0") apachePolicy dualDep
      (by decide) (by decide) (by decide) (by decide) (by decide)).2.2
      (by decide) (by decide) (by decide)⟩

/-- Factorization of the deep-scan walk: each walker function equals the
left fold of the create-or-merge step over its encounter sequence. -/
theorem walk_factor (fuel : Nat) :
    (∀ entries nmPath depth parent st,
      walkNM fuel entries nmPath depth parent st
        = (encNM fuel entries nmPath depth parent).foldl depStep st)
    ∧ (∀ scopeName subs scopePath depth parent st,
      walkScope fuel scopeName subs scopePath depth parent st
        = (encScope fuel scopeName subs scopePath depth parent).foldl depStep st)
    ∧ (∀ dir name path depth parent st,
      processDep fuel dir name path depth parent st
        = (encProcess fuel dir name path depth parent).foldl depStep st) := by
  induction fuel with
  | zero => refine ⟨?_, ?_, ?_⟩ <;> intros <;> rfl
  | succ f ih =>
    obtain ⟨ihNM, ihScope, ihProc⟩ := ih
    refine ⟨?_, ?_, ?_⟩
    · intro entries nmPath depth parent st
      cases entries with
      | nil => rfl
      | cons e rest =>
        obtain ⟨ename, edir⟩ := e
        show walkNM f rest nmPath depth parent
            (if headCharIs ename '.' then st
             else if headCharIs ename '@' then
               walkScope f ename edir.subdirs (nmPath ++ '/' :: ename) depth parent st
             else processDep f edir ename (nmPath ++ '/' :: ename) depth parent st)
          = ((if headCharIs ename '.' then []
              else if headCharIs ename '@' then
                encScope f ename edir.subdirs (nmPath ++ '/' :: ename) depth parent
              else encProcess f edir ename (nmPath ++ '/' :: ename) depth parent)
             ++ encNM f rest nmPath depth parent).foldl depStep st
        rw [List.foldl_append]
        by_cases h1 : headCharIs ename '.' = true
        · rw [if_pos h1, if_pos h1, List.foldl_nil]
          exact ihNM rest nmPath depth parent st
        · rw [if_neg h1, if_neg h1]
          by_cases h2 : headCharIs ename '@' = true
          · rw [if_pos h2, if_pos h2,
              ihScope ename edir.subdirs (nmPath ++ '/' :: ename) depth parent st]
            exact ihNM rest nmPath depth parent _
          · rw [if_neg h2, if_neg h2,
              ihProc edir ename (nmPath ++ '/' :: ename) depth parent st]
            exact ihNM rest nmPath depth parent _
    · intro scopeName subs scopePath depth parent st
      cases subs with
      | nil => rfl
      | cons s rest =>
        obtain ⟨sname, sdir⟩ := s
        show walkScope f scopeName rest scopePath depth parent
            (processDep f sdir (scopeName ++ '/' :: sname) (scopePath ++ '/' :: sname) depth parent st)
          = ((encProcess f sdir (scopeName ++ '/' :: sname) (scopePath ++ '/' :: sname) depth parent)
             ++ encScope f scopeName rest scopePath depth parent).foldl depStep st
        rw [List.foldl_append,
          ihProc sdir (scopeName ++ '/' :: sname) (scopePath ++ '/' :: sname) depth parent st]
        exact ihScope scopeName rest scopePath depth parent _
    · intro dir name path depth parent st
      cases dir with
      | mk man files subs =>
        cases man with
        | none => rfl
        | some pkg =>
          show walkNM f (nmEntriesOf (FsDir.mk (some pkg) files subs))
              (path ++ chars "/node_modules") (depth + 1) (some name)
              (depStep st ⟨name, manifestVersion pkg, resolvedLicense pkg files, path, depth, parent⟩)
            = (⟨name, manifestVersion pkg, resolvedLicense pkg files, path, depth, parent⟩
               :: encNM f (nmEntriesOf (FsDir.mk (some pkg) files subs))
                    (path ++ chars "/node_modules") (depth + 1) (some name)).foldl depStep st
          rw [List.foldl_cons]
          exact ihNM _ _ _ _ _

/-- A failed lookup means no entry carries the key. -/
theorem lookupA_none_iff {α : Type} (st : List (List Char × α)) (k : List Char) :
    lookupA st k = none ↔ ∀ p ∈ st, p.1 ≠ k := by
  induction st with
  | nil =>
    constructor
    · intro _ p hp
      exact absurd hp (List.not_mem_nil p)
    · intro _
      rfl
  | cons hd rest ih =>
    obtain ⟨k2, v⟩ := hd
    by_cases h : k2 = k
    · constructor
      · intro hnone
        exfalso
        have hsome : lookupA ((k2, v) :: rest) k = some v := by
          simp only [lookupA, if_pos h]
        rw [hsome] at hnone
        exact Option.noConfusion hnone
      · intro hall
        exact absurd h (hall (k2, v) (List.mem_cons_self _ _))
    · have hstep : lookupA ((k2, v) :: rest) k = lookupA rest k := by
        simp only [lookupA, if_neg h]
      rw [hstep, ih]
      constructor
      · intro hall p hp
        rcases List.mem_cons.mp hp with h1 | h1
        · rw [h1]
          exact h
        · exact hall p h1
      · intro hall p hp
        exact hall p (List.mem_cons_of_mem _ hp)

/-- A successful lookup returns a stored entry. -/
theorem lookupA_some_mem {α : Type} (st : List (List Char × α)) (k : List Char) (v : α) :
    lookupA st k = some v → (k, v) ∈ st := by
  induction st with
  | nil => intro h; simp [lookupA] at h
  | cons p rest ih =>
    obtain ⟨k2, w⟩ := p
    simp only [lookupA]
    by_cases h : k2 = k
    · rw [if_pos h]
      intro hv
      have hw : w = v := by injection hv
      refine List.mem_cons.mpr (Or.inl ?_)
      rw [h, hw]
    · rw [if_neg h]
      intro hv
      exact List.mem_cons_of_mem _ (ih hv)

/-- Updating an entry does not change the key sequence. -/
theorem updateFirst_map_fst (st : ScanSt) (k : List Char) (f : ScannedDep → ScannedDep) :
    (updateFirst st k f).map Prod.fst = st.map Prod.fst := by
  induction st with
  | nil => rfl
  | cons p rest ih =>
    obtain ⟨k2, v⟩ := p
    simp only [updateFirst]
    by_cases h : k2 = k
    · rw [if_pos h]; simp
    · rw [if_neg h]; simp [ih]

/-- Membership in the updated map, given unique keys: the stored value at
the key is replaced by its image under the update, everything else is
untouched. -/
theorem updateFirst_mem_iff (st : ScanSt) (k : List Char) (f : ScannedDep → ScannedDep)
    (hnd : (st.map Prod.fst).Nodup) (v : ScannedDep) (hv : (k, v) ∈ st) :
    ∀ p, p ∈ updateFirst st k f ↔ (p = (k, f v) ∨ (p.1 ≠ k ∧ p ∈ st)) := by
  induction st with
  | nil => simp at hv
  | cons hd rest ih =>
    obtain ⟨k2, u⟩ := hd
    simp only [List.map_cons, List.nodup_cons] at hnd
    obtain ⟨hk2, hndrest⟩ := hnd
    intro p
    simp only [updateFirst]
    by_cases h : k2 = k
    · subst h
      have hvu : v = u := by
        rcases List.mem_cons.mp hv with h1 | h1
        · exact (Prod.mk.injEq _ _ _ _ ▸ h1).2.symm ▸ rfl
        · exact absurd (List.mem_map.mpr ⟨(k2, v), h1, rfl⟩) hk2
      subst hvu
      rw [if_pos rfl]
      constructor
      · intro hp
        rcases List.mem_cons.mp hp with h1 | h1
        · exact Or.inl h1
        · refine Or.inr ⟨?_, List.mem_cons_of_mem _ h1⟩
          intro hpk
          exact hk2 (List.mem_map.mpr ⟨p, h1, hpk⟩)
      · intro hp
        rcases hp with h1 | ⟨hpk, h1⟩
        · exact h1 ▸ List.mem_cons_self _ _
        · rcases List.mem_cons.mp h1 with h2 | h2
          · exact absurd (congrArg Prod.fst h2) hpk
          · exact List.mem_cons_of_mem _ h2
    · rw [if_neg h]
      have hvrest : (k, v) ∈ rest := by
        rcases List.mem_cons.mp hv with h1 | h1
        · exact absurd (congrArg Prod.fst h1).symm h
        · exact h1
      constructor
      · intro hp
        rcases List.mem_cons.mp hp with h1 | h1
        · exact Or.inr ⟨by rw [h1]; exact h, h1 ▸ List.mem_cons_self _ _⟩
        · rcases (ih hndrest hvrest p).mp h1 with h2 | ⟨h2, h3⟩
          · exact Or.inl h2
          · exact Or.inr ⟨h2, List.mem_cons_of_mem _ h3⟩
      · intro hp
        rcases hp with h1 | ⟨hpk, h1⟩
        · exact List.mem_cons_of_mem _ ((ih hndrest hvrest p).mpr (Or.inl h1))
        · rcases List.mem_cons.mp h1 with h2 | h2
          · exact h2 ▸ List.mem_cons_self _ _
          · exact List.mem_cons_of_mem _ ((ih hndrest hvrest p).mpr (Or.inr ⟨hpk, h2⟩))

/-- Pushing a parent does not change the record name. -/
theorem mergeParent_name (r : ScannedDep) (parent : Option (List Char)) :
    (mergeParent r parent).name = r.name := by
  cases parent with
  | none => rfl
  | some pp =>
    show (if pp ≠ [] ∧ pp ∉ r.dependedBy then
        { r with dependedBy := r.dependedBy ++ [pp] } else r).name = r.name
    split <;> rfl

/-- Pushing a parent does not change the record version. -/
theorem mergeParent_version (r : ScannedDep) (parent : Option (List Char)) :
    (mergeParent r parent).version = r.version := by
  cases parent with
  | none => rfl
  | some pp =>
    show (if pp ≠ [] ∧ pp ∉ r.dependedBy then
        { r with dependedBy := r.dependedBy ++ [pp] } else r).version = r.version
    split <;> rfl

/-- Pushing a parent does not change the record depth. -/
theorem mergeParent_depth (r : ScannedDep) (parent : Option (List Char)) :
    (mergeParent r parent).depth = r.depth := by
  cases parent with
  | none => rfl
  | some pp =>
    show (if pp ≠ [] ∧ pp ∉ r.dependedBy then
        { r with dependedBy := r.dependedBy ++ [pp] } else r).depth = r.depth
    split <;> rfl

/-- The pushed parent set appends the new parent exactly when it is
truthy and fresh. -/
theorem mergeParent_dependedBy (r : ScannedDep) (parent : Option (List Char)) :
    (mergeParent r parent).dependedBy
      = r.dependedBy ++ (match parent with
          | some p => if p ≠ [] ∧ p ∉ r.dependedBy then [p] else []
          | none => []) := by
  cases parent with
  | none =>
    show r.dependedBy = r.dependedBy ++ []
    rw [List.append_nil]
  | some pp =>
    show (if pp ≠ [] ∧ pp ∉ r.dependedBy then
        { r with dependedBy := r.dependedBy ++ [pp] } else r).dependedBy
      = r.dependedBy ++ (if pp ≠ [] ∧ pp ∉ r.dependedBy then [pp] else [])
    by_cases h : pp ≠ [] ∧ pp ∉ r.dependedBy
    · rw [if_pos h, if_pos h]
    · rw [if_neg h, if_neg h, List.append_nil]

/-- Name and version survive a merge. -/
theorem mergeDup_key (r : ScannedDep) (parent : Option (List Char)) (depth : Nat) :
    keyR (mergeDup r parent depth) = keyR r := by
  unfold mergeDup keyR
  split <;> simp [mergeParent_name, mergeParent_version]

/-- The merged depth is the minimum of the stored and the new depth. -/
theorem mergeDup_depth (r : ScannedDep) (parent : Option (List Char)) (depth : Nat) :
    (mergeDup r parent depth).depth = min r.depth depth := by
  unfold mergeDup
  split
  · rename_i h
    rw [mergeParent_depth] at h
    simp
    omega
  · rename_i h
    rw [mergeParent_depth] at h
    rw [mergeParent_depth]
    omega

/-- The merged parent set appends the new parent exactly when it is
truthy and fresh. -/
theorem mergeDup_dependedBy (r : ScannedDep) (parent : Option (List Char)) (depth : Nat) :
    (mergeDup r parent depth).dependedBy
      = r.dependedBy ++ (match parent with
          | some p => if p ≠ [] ∧ p ∉ r.dependedBy then [p] else []
          | none => []) := by
  unfold mergeDup
  split <;> simp [mergeParent_dependedBy]

/-- One create-or-merge step preserves the scan invariant. -/
theorem scanInv_step (st : ScanSt) (seen : List Enc) (e : Enc) (h : ScanInv st seen) :
    ScanInv (depStep st e) (seen ++ [e]) := by
  obtain ⟨h1, h2, h3, h4, h5⟩ := h
  unfold depStep
  cases hlk : lookupA st (keyE e) with
  | none =>
    have hnotin : ∀ p ∈ st, p.1 ≠ keyE e := (lookupA_none_iff st (keyE e)).mp hlk
    have hnoseen : ∀ e2 ∈ seen, keyE e2 ≠ keyE e := by
      intro e2 he2 hk
      obtain ⟨r, hr⟩ := (h3 (keyE e)).mp ⟨e2, he2, hk⟩
      exact hnotin (keyE e, r) hr rfl
    refine ⟨?_, ?_, ?_, ?_, ?_⟩
    · intro p hp
      rcases List.mem_append.mp hp with hold | hnew
      · exact h1 p hold
      · rw [List.mem_singleton.mp hnew]
        rfl
    · rw [List.map_append]
      refine List.Nodup.append h2 (List.nodup_singleton _) ?_
      intro x hx hx2
      rcases List.mem_map.mp hx with ⟨p, hp, hpx⟩
      have hx3 : x = keyE e := by
        simpa using hx2
      exact hnotin p hp (hpx.trans hx3)
    · intro k
      constructor
      · rintro ⟨e2, he2, hk⟩
        rcases List.mem_append.mp he2 with hs | hs
        · obtain ⟨r, hr⟩ := (h3 k).mp ⟨e2, hs, hk⟩
          exact ⟨r, List.mem_append_left _ hr⟩
        · have he2e : e2 = e := List.mem_singleton.mp hs
          subst he2e
          exact ⟨_, by rw [← hk]; exact List.mem_append_right _ (List.mem_singleton.mpr rfl)⟩
      · rintro ⟨r, hr⟩
        rcases List.mem_append.mp hr with hs | hs
        · obtain ⟨e2, he2, hk⟩ := (h3 k).mpr ⟨r, hs⟩
          exact ⟨e2, List.mem_append_left _ he2, hk⟩
        · have hkk : k = keyE e := congrArg Prod.fst (List.mem_singleton.mp hs)
          exact ⟨e, List.mem_append_right _ (List.mem_singleton.mpr rfl), hkk.symm⟩
    · intro p hp
      rcases List.mem_append.mp hp with hold | hnew
      · obtain ⟨hb, e0, he0, hk0, hd0⟩ := h4 p hold
        refine ⟨?_, e0, List.mem_append_left _ he0, hk0, hd0⟩
        intro e2 he2 hk
        rcases List.mem_append.mp he2 with hs | hs
        · exact hb e2 hs hk
        · have he2e : e2 = e := List.mem_singleton.mp hs
          subst he2e
          exact absurd hk.symm (hnotin p hold)
      · have hpe := List.mem_singleton.mp hnew
        subst hpe
        constructor
        · intro e2 he2 hk
          rcases List.mem_append.mp he2 with hs | hs
          · exact absurd hk (hnoseen e2 hs)
          · have he2e : e2 = e := List.mem_singleton.mp hs
            subst he2e
            exact Nat.le_refl _
        · exact ⟨e, List.mem_append_right _ (List.mem_singleton.mpr rfl), rfl, rfl⟩
    · intro p hp
      rcases List.mem_append.mp hp with hold | hnew
      · obtain ⟨hnd, hiff⟩ := h5 p hold
        refine ⟨hnd, fun q => ?_⟩
        rw [hiff q]
        constructor
        · rintro ⟨e2, he2, hk, hp2, hq2⟩
          exact ⟨e2, List.mem_append_left _ he2, hk, hp2, hq2⟩
        · rintro ⟨e2, he2, hk, hp2, hq2⟩
          rcases List.mem_append.mp he2 with hs | hs
          · exact ⟨e2, hs, hk, hp2, hq2⟩
          · have he2e : e2 = e := List.mem_singleton.mp hs
            subst he2e
            exact absurd hk.symm (hnotin p hold)
      · have hpe := List.mem_singleton.mp hnew
        subst hpe
        constructor
        · show (initParents e.parent).Nodup
          cases e.parent with
          | none => exact List.nodup_nil
          | some pp =>
            show (if pp = [] then [] else [pp]).Nodup
            split
            · exact List.nodup_nil
            · exact List.nodup_singleton _
        · intro q
          show q ∈ initParents e.parent ↔ _
          constructor
          · intro hq
            cases hpar : e.parent with
            | none =>
              rw [hpar] at hq
              exact absurd hq (List.not_mem_nil q)
            | some pp =>
              rw [hpar] at hq
              have hq2 : q ∈ (if pp = [] then ([] : List (List Char)) else [pp]) := hq
              by_cases hpp : pp = []
              · rw [if_pos hpp] at hq2
                exact absurd hq2 (List.not_mem_nil q)
              · rw [if_neg hpp] at hq2
                have hqpp : q = pp := List.mem_singleton.mp hq2
                refine ⟨e, List.mem_append_right _ (List.mem_singleton.mpr rfl), rfl, ?_, ?_⟩
                · rw [hpar, hqpp]
                · rw [hqpp]
                  exact hpp
          · rintro ⟨e2, he2, hk, hp2, hq2⟩
            rcases List.mem_append.mp he2 with hs | hs
            · exact absurd hk (hnoseen e2 hs)
            · have he2e : e2 = e := List.mem_singleton.mp hs
              subst he2e
              rw [hp2]
              show q ∈ (if q = [] then ([] : List (List Char)) else [q])
              rw [if_neg hq2]
              exact List.mem_singleton.mpr rfl
  | some v =>
    have hvmem : (keyE e, v) ∈ st := lookupA_some_mem st (keyE e) v hlk
    have hmem := updateFirst_mem_iff st (keyE e)
      (fun r => mergeDup r e.parent e.depth) h2 v hvmem
    refine ⟨?_, ?_, ?_, ?_, ?_⟩
    · intro p hp
      rcases (hmem p).mp hp with hpe | ⟨hne, hmemst⟩
      · rw [hpe]
        show keyR (mergeDup v e.parent e.depth) = keyE e
        rw [mergeDup_key]
        exact h1 (keyE e, v) hvmem
      · exact h1 p hmemst
    · rw [updateFirst_map_fst]
      exact h2
    · intro k
      constructor
      · rintro ⟨e2, he2, hk⟩
        by_cases hkk : k = keyE e
        · subst hkk
          exact ⟨mergeDup v e.parent e.depth, (hmem _).mpr (Or.inl rfl)⟩
        · rcases List.mem_append.mp he2 with hs | hs
          · obtain ⟨r, hr⟩ := (h3 k).mp ⟨e2, hs, hk⟩
            exact ⟨r, (hmem (k, r)).mpr (Or.inr ⟨hkk, hr⟩)⟩
          · have he2e : e2 = e := List.mem_singleton.mp hs
            subst he2e
            exact absurd hk.symm hkk
      · rintro ⟨r, hr⟩
        rcases (hmem (k, r)).mp hr with hpe | ⟨hne, hmemst⟩
        · have hkk : k = keyE e := congrArg Prod.fst hpe
          exact ⟨e, List.mem_append_right _ (List.mem_singleton.mpr rfl), hkk.symm⟩
        · obtain ⟨e2, he2, hk⟩ := (h3 k).mpr ⟨r, hmemst⟩
          exact ⟨e2, List.mem_append_left _ he2, hk⟩
    · intro p hp
      rcases (hmem p).mp hp with hpe | ⟨hne, hmemst⟩
      · subst hpe
        obtain ⟨hbv, e0, he0, hk0, hd0⟩ := h4 (keyE e, v) hvmem
        constructor
        · intro e2 he2 hk
          show (mergeDup v e.parent e.depth).depth ≤ e2.depth
          rw [mergeDup_depth]
          rcases List.mem_append.mp he2 with hs | hs
          · exact le_trans (Nat.min_le_left _ _) (hbv e2 hs hk)
          · have he2e : e2 = e := List.mem_singleton.mp hs
            subst he2e
            exact Nat.min_le_right _ _
        · by_cases hlt : e.depth < v.depth
          · refine ⟨e, List.mem_append_right _ (List.mem_singleton.mpr rfl), rfl, ?_⟩
            show e.depth = (mergeDup v e.parent e.depth).depth
            rw [mergeDup_depth]
            omega
          · refine ⟨e0, List.mem_append_left _ he0, hk0, ?_⟩
            have hd0v : e0.depth = v.depth := hd0
            show e0.depth = (mergeDup v e.parent e.depth).depth
            rw [mergeDup_depth, hd0v]
            omega
      · obtain ⟨hb, e0, he0, hk0, hd0⟩ := h4 p hmemst
        refine ⟨?_, e0, List.mem_append_left _ he0, hk0, hd0⟩
        intro e2 he2 hk
        rcases List.mem_append.mp he2 with hs | hs
        · exact hb e2 hs hk
        · have he2e : e2 = e := List.mem_singleton.mp hs
          subst he2e
          exact absurd hk.symm hne
    · intro p hp
      rcases (hmem p).mp hp with hpe | ⟨hne, hmemst⟩
      · subst hpe
        obtain ⟨hndv, hiffv⟩ := h5 (keyE e, v) hvmem
        cases hpar : e.parent with
        | none =>
          have hdb : (mergeDup v none e.depth).dependedBy = v.dependedBy := by
            rw [mergeDup_dependedBy]
            show v.dependedBy ++ ([] : List (List Char)) = v.dependedBy
            rw [List.append_nil]
          constructor
          · show (mergeDup v none e.depth).dependedBy.Nodup
            rw [hdb]
            exact hndv
          · intro q
            show q ∈ (mergeDup v none e.depth).dependedBy ↔ _
            rw [hdb, hiffv q]
            constructor
            · rintro ⟨e2, he2, hk, hp2, hq2⟩
              exact ⟨e2, List.mem_append_left _ he2, hk, hp2, hq2⟩
            · rintro ⟨e2, he2, hk, hp2, hq2⟩
              rcases List.mem_append.mp he2 with hs | hs
              · exact ⟨e2, hs, hk, hp2, hq2⟩
              · have he2e : e2 = e := List.mem_singleton.mp hs
                subst he2e
                rw [hpar] at hp2
                exact Option.noConfusion hp2
        | some pp =>
          by_cases hcond : pp ≠ [] ∧ pp ∉ v.dependedBy
          · have hdb : (mergeDup v (some pp) e.depth).dependedBy = v.dependedBy ++ [pp] := by
              rw [mergeDup_dependedBy]
              show v.dependedBy ++ (if pp ≠ [] ∧ pp ∉ v.dependedBy then [pp] else [])
                  = v.dependedBy ++ [pp]
              rw [if_pos hcond]
            constructor
            · show (mergeDup v (some pp) e.depth).dependedBy.Nodup
              rw [hdb]
              refine List.Nodup.append hndv (List.nodup_singleton _) ?_
              intro x hx hx2
              rw [List.mem_singleton.mp hx2] at hx
              exact hcond.2 hx
            · intro q
              show q ∈ (mergeDup v (some pp) e.depth).dependedBy ↔ _
              rw [hdb]
              constructor
              · intro hq
                rcases List.mem_append.mp hq with hol | hnw
                · obtain ⟨e2, he2, hk, hp2, hq2⟩ := (hiffv q).mp hol
                  exact ⟨e2, List.mem_append_left _ he2, hk, hp2, hq2⟩
                · have hqpp : q = pp := List.mem_singleton.mp hnw
                  refine ⟨e, List.mem_append_right _ (List.mem_singleton.mpr rfl), rfl, ?_, ?_⟩
                  · rw [hpar, hqpp]
                  · rw [hqpp]
                    exact hcond.1
              · rintro ⟨e2, he2, hk, hp2, hq2⟩
                rcases List.mem_append.mp he2 with hs | hs
                · exact List.mem_append_left _ ((hiffv q).mpr ⟨e2, hs, hk, hp2, hq2⟩)
                · have he2e : e2 = e := List.mem_singleton.mp hs
                  subst he2e
                  rw [hpar] at hp2
                  have hqpp : pp = q := by injection hp2
                  exact List.mem_append_right _ (List.mem_singleton.mpr hqpp.symm)
          · have hdb : (mergeDup v (some pp) e.depth).dependedBy = v.dependedBy := by
              rw [mergeDup_dependedBy]
              show v.dependedBy ++ (if pp ≠ [] ∧ pp ∉ v.dependedBy then [pp] else [])
                  = v.dependedBy
              rw [if_neg hcond, List.append_nil]
            constructor
            · show (mergeDup v (some pp) e.depth).dependedBy.Nodup
              rw [hdb]
              exact hndv
            · intro q
              show q ∈ (mergeDup v (some pp) e.depth).dependedBy ↔ _
              rw [hdb]
              constructor
              · intro hq
                obtain ⟨e2, he2, hk, hp2, hq2⟩ := (hiffv q).mp hq
                exact ⟨e2, List.mem_append_left _ he2, hk, hp2, hq2⟩
              · rintro ⟨e2, he2, hk, hp2, hq2⟩
                rcases List.mem_append.mp he2 with hs | hs
                · exact (hiffv q).mpr ⟨e2, hs, hk, hp2, hq2⟩
                · have he2e : e2 = e := List.mem_singleton.mp hs
                  subst he2e
                  rw [hpar] at hp2
                  have hqpp : pp = q := by injection hp2
                  rw [← hqpp]
                  rcases not_and_or.mp hcond with h1 | h1
                  · exact absurd (not_not.mp h1) (by rw [hqpp]; exact hq2)
                  · exact not_not.mp h1
      · obtain ⟨hnd, hiff⟩ := h5 p hmemst
        refine ⟨hnd, fun q => ?_⟩
        rw [hiff q]
        constructor
        · rintro ⟨e2, he2, hk, hp2, hq2⟩
          exact ⟨e2, List.mem_append_left _ he2, hk, hp2, hq2⟩
        · rintro ⟨e2, he2, hk, hp2, hq2⟩
          rcases List.mem_append.mp he2 with hs | hs
          · exact ⟨e2, hs, hk, hp2, hq2⟩
          · have he2e : e2 = e := List.mem_singleton.mp hs
            subst he2e
            exact absurd hk.symm hne

/-- The empty dedup map satisfies the scan invariant for no encounters. -/
theorem scanInv_nil : ScanInv [] [] := by
  refine ⟨?_, ?_, ?_, ?_, ?_⟩
  · intro p hp
    exact absurd hp (List.not_mem_nil p)
  · exact List.nodup_nil
  · intro k
    constructor
    · rintro ⟨e2, he2, _⟩
      exact absurd he2 (List.not_mem_nil e2)
    · rintro ⟨r, hr⟩
      exact absurd hr (List.not_mem_nil _)
  · intro p hp
    exact absurd hp (List.not_mem_nil p)
  · intro p hp
    exact absurd hp (List.not_mem_nil p)

/-- Folding a batch of encounters preserves the scan invariant. -/
theorem scanInv_foldl : ∀ (es : List Enc) (st : ScanSt) (seen : List Enc),
    ScanInv st seen → ScanInv (es.foldl depStep st) (seen ++ es) := by
  intro es
  induction es with
  | nil =>
    intro st seen h
    rw [List.foldl_nil, List.append_nil]
    exact h
  | cons e rest ih =>
    intro st seen h
    rw [List.foldl_cons]
    have h2 := ih (depStep st e) (seen ++ [e]) (scanInv_step st seen e h)
    rw [List.append_assoc] at h2
    exact h2

/-- Claim C2 (amended): deep-scan deduplication works per `name@version`
key string (not per `(name, version)` pair, since distinct pairs can share
a key when a name or version contains `@`): after any scan the records
carry pairwise distinct keys, and for every encountered key the single
merged record holds the minimum depth over all encounters of that key and
the union of the truthy parents of those encounters, each exactly once. -/
theorem scanDeep_dedup_by_key (rootPath : List Char) (root : FsDir) :
    ((scanDeep rootPath root).map keyR).Nodup
    ∧ ∀ e ∈ scanEncounters rootPath root, ∃ r ∈ scanDeep rootPath root,
        keyR r = keyE e
        ∧ (∀ e2 ∈ scanEncounters rootPath root, keyE e2 = keyE e → r.depth ≤ e2.depth)
        ∧ (∃ e2 ∈ scanEncounters rootPath root, keyE e2 = keyE e ∧ e2.depth = r.depth)
        ∧ r.dependedBy.Nodup
        ∧ (∀ q, q ∈ r.dependedBy ↔ ∃ e2 ∈ scanEncounters rootPath root,
            keyE e2 = keyE e ∧ e2.parent = some q ∧ q ≠ []) := by
  have hinv := scanInv_foldl (scanEncounters rootPath root) [] [] scanInv_nil
  rw [List.nil_append] at hinv
  have hscan : scanDeep rootPath root
      = ((scanEncounters rootPath root).foldl depStep []).map Prod.snd := by
    unfold scanDeep scanEncounters
    rw [(walk_factor (fsSize root)).1]
  obtain ⟨h1, h2, h3, h4, h5⟩ := hinv
  constructor
  · rw [hscan, List.map_map]
    have hmc : ((scanEncounters rootPath root).foldl depStep []).map (keyR ∘ Prod.snd)
        = ((scanEncounters rootPath root).foldl depStep []).map Prod.fst := by
      apply List.map_congr_left
      intro p hp
      exact h1 p hp
    rw [hmc]
    exact h2
  · intro e he
    obtain ⟨r, hr⟩ := (h3 (keyE e)).mp ⟨e, he, rfl⟩
    refine ⟨r, ?_, ?_, ?_, ?_, ?_, ?_⟩
    · rw [hscan]
      exact List.mem_map.mpr ⟨(keyE e, r), hr, rfl⟩
    · exact h1 (keyE e, r) hr
    · intro e2 he2 hk
      exact (h4 (keyE e, r) hr).1 e2 he2 hk
    · exact (h4 (keyE e, r) hr).2
    · exact (h5 (keyE e, r) hr).1
    · intro q
      exact (h5 (keyE e, r) hr).2 q

/-- Counterexample for C2: in `collisionRoot` the pair `("a", "b@2")` is
encountered twice, both times at depth 1, yet its merged record ends with
depth 0, because the distinct pair `("a@b", "2")` shares the dedup key
`a@b@2` and its depth-0 encounter merges into the same record; so the
per-pair minimum-depth statement fails. -/
theorem scanDeep_dedup_pair_fails : ¬ DedupPerPair (chars "/r") collisionRoot := by
  intro h
  obtain ⟨-, h2⟩ := h
  have hE : scanEncounters (chars "/r") collisionRoot
      = [⟨chars "p", chars "1", chars "UNKNOWN", chars "/r/node_modules/p", 0, none⟩,
         ⟨chars "a", chars "b@2", chars "UNKNOWN",
           chars "/r/node_modules/p/node_modules/a", 1, some (chars "p")⟩,
         ⟨chars "q", chars "1", chars "UNKNOWN", chars "/r/node_modules/q", 0, none⟩,
         ⟨chars "a", chars "b@2", chars "UNKNOWN",
           chars "/r/node_modules/q/node_modules/a", 1, some (chars "q")⟩,
         ⟨chars "a@b", chars "2", chars "UNKNOWN", chars "/r/node_modules/a@b", 0, none⟩] := by
    decide
  have hS : scanDeep (chars "/r") collisionRoot
      = [⟨chars "p", chars "1", chars "UNKNOWN", chars "/r/node_modules/p", 0, []⟩,
         ⟨chars "a", chars "b@2", chars "UNKNOWN",
           chars "/r/node_modules/p/node_modules/a", 0, [chars "p", chars "q"]⟩,
         ⟨chars "q", chars "1", chars "UNKNOWN", chars "/r/node_modules/q", 0, []⟩] := by
    decide
  obtain ⟨r, hrS, hname, hver, hmin, hex, hnd, hdb⟩ :=
    h2 ⟨chars "a", chars "b@2", chars "UNKNOWN",
          chars "/r/node_modules/p/node_modules/a", 1, some (chars "p")⟩
      (by rw [hE]; decide)
      (by rw [hE]; decide)
  rw [hS] at hrS
  simp only [List.mem_cons, List.not_mem_nil, or_false] at hrS
  rcases hrS with rfl | rfl | rfl
  · exact absurd hname (by decide)
  · obtain ⟨e2, he2E, hn2, hv2, hd2⟩ := hex
    rw [hE] at he2E
    simp only [List.mem_cons, List.not_mem_nil, or_false] at he2E
    rcases he2E with rfl | rfl | rfl | rfl | rfl
    · exact absurd hn2 (by decide)
    · exact absurd hd2 (by decide)
    · exact absurd hn2 (by decide)
    · exact absurd hd2 (by decide)
    · exact absurd hn2 (by decide)
  · exact absurd hname (by decide)

end LicenseWall
